import Mathlib

/-!
Verification of a thread-safe, node-addressable doubly linked list
(`src/lib.rs`).  The embedding models the heap explicitly: node handles and
list handles are natural-number identifiers, the `State` maps each
identifier to the record of fields the Rust code stores behind the
corresponding mutex.  Weak references are modelled as `Option Nat`; all
claims assume every returned node handle is retained, so an upgrade of a
stored weak reference succeeds exactly when the option is `some`.
Operations are given their sequential (single-thread, uncontended)
semantics: every blocking lock acquisition succeeds, and the non-blocking
acquisition inside the insertion loop of `put_back` succeeds, so the loop
body runs exactly once.  The state mutation performed by a failed loop
iteration is modelled separately by `put_back_retry`.
-/

namespace LinkedList

/-- Fields of the struct behind the per-node mutex: `data`, and the three
weak references `parent`, `prev`, `next` (lib.rs lines 91 to 96). -/
structure NodeData where
  data : Nat
  parent : Option Nat
  prev : Option Nat
  next : Option Nat
deriving DecidableEq, Repr

/-- The two boundary slots of a list, each behind its own mutex
(lib.rs lines 14 to 17). -/
structure ListData where
  head : Option Nat
  tail : Option Nat
deriving DecidableEq, Repr

/-- Global state: all lists, all nodes, and an allocation counter used by
`push_back` to create fresh node handles. -/
structure State where
  lists : Nat → ListData
  nodes : Nat → NodeData
  fresh : Nat

/-- Overwrite the record of node `i`. -/
def State.updNode (s : State) (i : Nat) (v : NodeData) : State :=
  { s with nodes := fun j => if j = i then v else s.nodes j }

/-- Overwrite the boundary slots of list `i`. -/
def State.updList (s : State) (i : Nat) (v : ListData) : State :=
  { s with lists := fun j => if j = i then v else s.lists j }

/-- Clearing the three weak references of a node, as done by the three
`take_weak` calls at the start of `Node::remove`. -/
def clearLinks (nd : NodeData) : NodeData :=
  { nd with parent := none, prev := none, next := none }

/-- `Node::remove` (lib.rs lines 127 to 165), sequential semantics.  The
three `take_weak` calls read `parent`, `prev` and `next` and clear them;
the four-way case split then repairs the neighbours or the boundary slots
of the parent list. -/
def remove (s : State) (n : Nat) : State :=
  match (s.nodes n).parent, (s.nodes n).prev, (s.nodes n).next with
  | none, _, _ => s
  | some p, none, none =>
      -- only element of the list: clear both boundary slots
      (s.updNode n (clearLinks (s.nodes n))).updList p { head := none, tail := none }
  | some p, none, some nx =>
      -- head of the list: move the head slot to the successor
      let s1 := s.updNode n (clearLinks (s.nodes n))
      let s2 := s1.updList p { s1.lists p with head := some nx }
      s2.updNode nx { s2.nodes nx with prev := none }
  | some p, some pv, none =>
      -- tail of the list: move the tail slot to the predecessor
      let s1 := s.updNode n (clearLinks (s.nodes n))
      let s2 := s1.updList p { s1.lists p with tail := some pv }
      s2.updNode pv { s2.nodes pv with next := none }
  | some _, some pv, some nx =>
      -- middle of the list: splice the neighbours together
      let s1 := s.updNode n (clearLinks (s.nodes n))
      let s2 := s1.updNode pv { s1.nodes pv with next := some nx }
      s2.updNode nx { s2.nodes nx with prev := some pv }

/-- The conditional head update of the insertion loop (lib.rs lines 64
to 69): set the head slot to the new node when the slot is empty. -/
def setHeadIfEmpty (s : State) (p : Nat) (n : Nat) : State :=
  if (s.lists p).head = none then s.updList p { s.lists p with head := some n } else s

/-- The final tail update of the insertion loop (lib.rs line 71). -/
def setTail (s : State) (p : Nat) (n : Nat) : State :=
  s.updList p { s.lists p with tail := some n }

/-- The body of the insertion loop of `List::put_back` (lib.rs lines 50 to
73) in the successful case: the node is already detached, the tail slot is
read, the `parent` and `prev` fields of the node are set, the `next` field
of the previous tail (when live) is set, then the head slot is filled if
empty and the tail slot is set to the new node. -/
def insert_back (s : State) (p : Nat) (n : Nat) : State :=
  match (s.lists p).tail with
  | none =>
      let s1 := s.updNode n { s.nodes n with parent := some p, prev := none }
      setTail (setHeadIfEmpty s1 p n) p n
  | some t =>
      let s1 := s.updNode n { s.nodes n with parent := some p, prev := some t }
      let s2 := s1.updNode t { s1.nodes t with next := some n }
      setTail (setHeadIfEmpty s2 p n) p n

/-- `List::put_back` (lib.rs lines 46 to 74), sequential semantics: lock
the node, detach it, then run the insertion loop (which succeeds on its
first iteration when there is no contention). -/
def put_back (s : State) (p : Nat) (n : Nat) : State :=
  insert_back (remove s n) p n

/-- The state mutation performed by one FAILED iteration of the insertion
loop of `List::put_back` (lib.rs lines 51 to 62): the tail slot is locked
and read, the `parent` and `prev` fields of the node are written, the
non-blocking acquisition of the previous tail fails, and the iteration
restarts.  Nothing else is written. -/
def put_back_retry (s : State) (p : Nat) (n : Nat) : State :=
  s.updNode n { s.nodes n with parent := some p, prev := (s.lists p).tail }

/-- `List::push_back` (lib.rs lines 32 to 37): allocate a fresh node with
the given data and no attachments, then `put_back` it. -/
def push_back (s : State) (p : Nat) (d : Nat) : State × Nat :=
  let n := s.fresh
  let s1 := { s with fresh := n + 1 }
  let s2 := s1.updNode n { data := d, parent := none, prev := none, next := none }
  (put_back s2 p n, n)

/-- `List::head` (lib.rs lines 78 to 80): read the head slot. -/
def head (s : State) (p : Nat) : Option Nat :=
  (s.lists p).head

/-- `Node::next` (lib.rs lines 170 to 172): read the `next` field of an
already locked node. -/
def next (s : State) (n : Nat) : Option Nat :=
  (s.nodes n).next

/-- Head-to-tail traversal: start from `head`, repeatedly follow `next`,
with explicit fuel. -/
def traverseFrom (s : State) : Nat → Option Nat → List Nat
  | 0, _ => []
  | _ + 1, none => []
  | fuel + 1, some n => n :: traverseFrom s fuel (next s n)

/-- Traversal of list `p` from its head. -/
def traverse (s : State) (p : Nat) (fuel : Nat) : List Nat :=
  traverseFrom s fuel (head s p)

/-- The initial state: every list empty, every node record defaulted, no
node allocated yet. -/
def initState : State :=
  { lists := fun _ => { head := none, tail := none }
    nodes := fun _ => { data := 0, parent := none, prev := none, next := none }
    fresh := 0 }

/-- A single-thread call: either `push_back` of a new value, or `put_back`
of a previously returned node handle. -/
inductive Op where
  | push (d : Nat)
  | put (n : Nat)
deriving DecidableEq, Repr

def runOp (s : State) (p : Nat) : Op → State
  | .push d => (push_back s p d).1
  | .put n => put_back s p n

/-- Run a sequence of single-thread calls against list `p`. -/
def run (s : State) (p : Nat) : List Op → State
  | [] => s
  | o :: rest => run (runOp s p o) p rest

/-- Validity of a call sequence: every `put` names a node handle returned
by an earlier `push` (the caller retains all returned handles). -/
def opsValidB (c : Nat) : List Op → Bool
  | [] => true
  | .push _ :: rest => opsValidB (c + 1) rest
  | .put n :: rest => decide (n < c) && opsValidB c rest

/-- Abstract effect of one call on the expected traversal order: `push`
appends the fresh handle, `put` moves the handle to the end. -/
def absOp (c : Nat) (l : List Nat) : Op → Nat × List Nat
  | .push _ => (c + 1, l ++ [c])
  | .put n => (c, l.erase n ++ [n])

/-- Abstract run: the expected traversal order after a call sequence. -/
def absRun (c : Nat) (l : List Nat) : List Op → Nat × List Nat
  | [] => (c, l)
  | o :: rest => absRun (absOp c l o).1 (absOp c l o).2 rest

/-- Concrete witness sequence: two pushes against list 0. -/
def opsW2 : List Op := [Op.push 5, Op.push 7]

/-- Concrete witness state: the list 0 holds nodes 0 and 1 in that order. -/
def sW2 : State := run initState 0 opsW2

/-- Concrete witness sequence: three pushes against list 0. -/
def opsW3 : List Op := [Op.push 5, Op.push 7, Op.push 9]

/-- Concrete witness state: the list 0 holds nodes 0, 1, 2 in that order. -/
def sW3 : State := run initState 0 opsW3

/-- Concrete witness state: node 2 detached again, list 0 holds 0, 1. -/
def sD3 : State := remove sW3 2

/-- The head of `l`, or the fallback `nx` when `l` is empty.  Used to say
what the `next` field of the node before a chain segment must point at. -/
def headOr (l : List Nat) (nx : Option Nat) : Option Nat :=
  match l with
  | [] => nx
  | m :: _ => some m

/-- The last element of `l`, or the fallback `pv` when `l` is empty.  Used
to say what the `prev` field of the node after a chain segment must point
at. -/
def lastOr (pv : Option Nat) (l : List Nat) : Option Nat :=
  match l.getLast? with
  | none => pv
  | some m => some m

/-- `isSeg s p pv l nx`: the nodes listed in `l` form a doubly linked
segment of list `p` in state `s`, where the first node of `l` has `prev`
field `pv` and the last node of `l` has `next` field `nx`. -/
def isSeg (s : State) (p : Nat) : Option Nat → List Nat → Option Nat → Prop
  | _, [], _ => True
  | pv, n :: rest, nx =>
      (s.nodes n).parent = some p ∧
      (s.nodes n).prev = pv ∧
      (s.nodes n).next = headOr rest nx ∧
      isSeg s p (some n) rest nx

/-- Representation invariant: state `s` realises the abstract sequence `l`
as the chain of list `p`.  Beyond the chain itself it records that the
boundary slots point at the ends of `l`, that the nodes carrying list `p`
as parent are exactly the members of `l`, that no node belongs to a list
other than `p`, and that a detached node has no residual neighbour
links. -/
structure Inv (s : State) (p : Nat) (l : List Nat) : Prop where
  nodup : l.Nodup
  head_eq : (s.lists p).head = l.head?
  tail_eq : (s.lists p).tail = l.getLast?
  chain : isSeg s p none l none
  mem_iff : ∀ m, (s.nodes m).parent = some p ↔ m ∈ l
  single : ∀ m, (s.nodes m).parent = none ∨ (s.nodes m).parent = some p
  detached : ∀ m, (s.nodes m).parent = none →
    (s.nodes m).prev = none ∧ (s.nodes m).next = none

@[simp] theorem updNode_nodes_self (s : State) (i : Nat) (v : NodeData) :
    (s.updNode i v).nodes i = v := by
  simp [State.updNode]

theorem updNode_nodes (s : State) (i j : Nat) (v : NodeData) :
    (s.updNode i v).nodes j = if j = i then v else s.nodes j := rfl

@[simp] theorem updNode_nodes_ne (s : State) (i j : Nat) (v : NodeData) (h : j ≠ i) :
    (s.updNode i v).nodes j = s.nodes j := by
  simp [State.updNode, h]

@[simp] theorem updNode_lists (s : State) (i : Nat) (v : NodeData) :
    (s.updNode i v).lists = s.lists := rfl

@[simp] theorem updNode_fresh (s : State) (i : Nat) (v : NodeData) :
    (s.updNode i v).fresh = s.fresh := rfl

@[simp] theorem updList_nodes (s : State) (i : Nat) (v : ListData) :
    (s.updList i v).nodes = s.nodes := rfl

@[simp] theorem updList_fresh (s : State) (i : Nat) (v : ListData) :
    (s.updList i v).fresh = s.fresh := rfl

@[simp] theorem updList_lists_self (s : State) (i : Nat) (v : ListData) :
    (s.updList i v).lists i = v := by
  simp [State.updList]

theorem updList_lists (s : State) (i j : Nat) (v : ListData) :
    (s.updList i v).lists j = if j = i then v else s.lists j := rfl

@[simp] theorem updList_lists_ne (s : State) (i j : Nat) (v : ListData) (h : j ≠ i) :
    (s.updList i v).lists j = s.lists j := by
  simp [State.updList, h]

@[simp] theorem isSeg_nil (s : State) (p : Nat) (pv nx : Option Nat) :
    isSeg s p pv [] nx := trivial

theorem isSeg_cons (s : State) (p : Nat) (pv nx : Option Nat) (n : Nat) (rest : List Nat) :
    isSeg s p pv (n :: rest) nx ↔
      (s.nodes n).parent = some p ∧
      (s.nodes n).prev = pv ∧
      (s.nodes n).next = headOr rest nx ∧
      isSeg s p (some n) rest nx := Iff.rfl

/-- A segment only depends on the records of its member nodes. -/
theorem isSeg_congr {s s2 : State} {p : Nat} {pv nx : Option Nat} {l : List Nat}
    (hagree : ∀ m ∈ l, s2.nodes m = s.nodes m) (h : isSeg s p pv l nx) :
    isSeg s2 p pv l nx := by
  induction l generalizing pv with
  | nil => trivial
  | cons a rest ih =>
    obtain ⟨h1, h2, h3, h4⟩ := h
    have ha : s2.nodes a = s.nodes a := hagree a (List.mem_cons_self a rest)
    exact ⟨ha ▸ h1, ha ▸ h2, ha ▸ h3,
      ih (fun m hm => hagree m (List.mem_cons_of_mem a hm)) h4⟩

theorem headOr_append (xs ys : List Nat) (nx : Option Nat) :
    headOr (xs ++ ys) nx = headOr xs (headOr ys nx) := by
  cases xs <;> simp [headOr]

theorem lastOr_cons (pv : Option Nat) (a : Nat) (xs : List Nat) :
    lastOr pv (a :: xs) = lastOr (some a) xs := by
  cases xs with
  | nil => simp [lastOr]
  | cons b bs =>
    cases h : (b :: bs).getLast? with
    | none => exact absurd (List.getLast?_eq_none_iff.mp h) (List.cons_ne_nil b bs)
    | some m => simp [lastOr, List.getLast?_cons_cons, h]

theorem lastOr_nil (pv : Option Nat) : lastOr pv [] = pv := rfl

/-- Splitting a segment at an append. -/
theorem isSeg_append (s : State) (p : Nat) (pv nx : Option Nat) (xs ys : List Nat) :
    isSeg s p pv (xs ++ ys) nx ↔
      isSeg s p pv xs (headOr ys nx) ∧ isSeg s p (lastOr pv xs) ys nx := by
  induction xs generalizing pv with
  | nil => simp [lastOr_nil]
  | cons a rest ih =>
    simp only [List.cons_append, isSeg_cons, headOr_append, lastOr_cons]
    rw [ih (some a)]
    tauto

theorem lastOr_none (l : List Nat) : lastOr none l = l.getLast? := by
  cases h : l.getLast? <;> simp [lastOr, h]

theorem headOr_none (l : List Nat) : headOr l none = l.head? := by
  cases l <;> simp [headOr]

theorem lastOr_concat (pv : Option Nat) (l : List Nat) (t : Nat) :
    lastOr pv (l ++ [t]) = some t := by
  simp [lastOr, List.getLast?_concat]

/-- Decomposing a `Nodup` hypothesis on a list with a distinguished middle
element. -/
theorem nodup_middle_parts {l1 l2 : List Nat} {n : Nat} (h : (l1 ++ n :: l2).Nodup) :
    n ∉ l1 ∧ n ∉ l2 ∧ l1.Nodup ∧ l2.Nodup ∧ ∀ a ∈ l1, a ∉ l2 := by
  simp only [List.nodup_append, List.nodup_cons, List.disjoint_cons_right] at h
  obtain ⟨h1, ⟨h2, h3⟩, h4, h5⟩ := h
  exact ⟨h4, h2, h1, h3, fun a ha hb => h5 ha hb⟩

theorem erase_middle (l1 l2 : List Nat) (n : Nat) (h : n ∉ l1) :
    (l1 ++ n :: l2).erase n = l1 ++ l2 := by
  rw [List.erase_append_right _ h, List.erase_cons_head]

/-- Changing only the `next` field of the last node of a segment retargets
the segment. -/
theorem isSeg_retarget {s s2 : State} {p : Nat} {pv nx nx2 : Option Nat}
    {l1 : List Nat} {t : Nat}
    (hagree : ∀ m ∈ l1, s2.nodes m = s.nodes m)
    (ht2 : (s2.nodes t).parent = (s.nodes t).parent)
    (ht3 : (s2.nodes t).prev = (s.nodes t).prev)
    (ht4 : (s2.nodes t).next = nx2)
    (h : isSeg s p pv (l1 ++ [t]) nx) :
    isSeg s2 p pv (l1 ++ [t]) nx2 := by
  rw [isSeg_append] at h ⊢
  obtain ⟨h1, h2⟩ := h
  refine ⟨isSeg_congr hagree h1, ?_⟩
  obtain ⟨g1, g2, g3, -⟩ := h2
  exact ⟨ht2 ▸ g1, ht3 ▸ g2, by simpa [headOr] using ht4, trivial⟩

end LinkedList
namespace LinkedList

theorem concat_cases (l : List Nat) : l = [] ∨ ∃ L b, l = L ++ [b] := by
  rcases List.eq_nil_or_concat l with h | ⟨L, b, h⟩
  · exact Or.inl h
  · exact Or.inr ⟨L, b, by simpa [List.concat_eq_append] using h⟩

theorem remove_inv {s : State} {p n : Nat} {l : List Nat}
    (h : Inv s p l) (hn : n ∈ l) :
    Inv (remove s n) p (l.erase n) := by
  obtain ⟨l1, l2, rfl⟩ := List.append_of_mem hn
  obtain ⟨hn1, hn2, hnd1, hnd2, hdisj⟩ := nodup_middle_parts h.nodup
  have hchain := h.chain
  rw [isSeg_append] at hchain
  obtain ⟨hA, hB⟩ := hchain
  obtain ⟨hpar, hprev, hnext, hC⟩ := hB
  rw [erase_middle _ _ _ hn1]
  have hnodup : (l1 ++ l2).Nodup := by
    rw [List.nodup_append]
    exact ⟨hnd1, hnd2, fun a ha hb => hdisj a ha hb⟩
  rcases concat_cases l1 with rfl | ⟨l1', t, rfl⟩
  · cases l2 with
    | nil =>
      have hpv : (s.nodes n).prev = none := hprev
      have hnx : (s.nodes n).next = none := hnext
      refine ⟨List.nodup_nil, ?_, ?_, trivial, ?_, ?_, ?_⟩
      · simp [remove, hpar, hpv, hnx]
      · simp [remove, hpar, hpv, hnx]
      · intro m
        by_cases hm : m = n
        · subst hm
          simp [remove, hpar, hpv, hnx, clearLinks]
        · have := h.mem_iff m
          simp only [List.nil_append, List.mem_cons, List.not_mem_nil, or_false] at this
          simp [remove, hpar, hpv, hnx, hm, this, List.not_mem_nil]
      · intro m
        by_cases hm : m = n
        · subst hm
          simp [remove, hpar, hpv, hnx, clearLinks]
        · have := h.single m
          simpa [remove, hpar, hpv, hnx, hm] using this
      · intro m
        by_cases hm : m = n
        · subst hm
          simp [remove, hpar, hpv, hnx, clearLinks]
        · have := h.detached m
          simpa [remove, hpar, hpv, hnx, hm] using this
    | cons c l2' =>
      have hpv : (s.nodes n).prev = none := hprev
      have hnx : (s.nodes n).next = some c := hnext
      obtain ⟨hc1, hc2, hc3, hC2⟩ := hC
      have hcn : c ≠ n := by
        rintro rfl
        exact hn2 (List.mem_cons_self c l2')
      have hcl : c ∉ l2' := (List.nodup_cons.mp hnd2).1
      have hnl : n ∉ l2' := fun hm => hn2 (List.mem_cons_of_mem c hm)
      simp only [List.nil_append]
      have hframe : ∀ m ∈ l2', (remove s n).nodes m = s.nodes m := by
        intro m hm
        have hm1 : m ≠ n := by rintro rfl; exact hnl hm
        have hm2 : m ≠ c := by rintro rfl; exact hcl hm
        simp [remove, hpar, hpv, hnx, State.updNode, hm1, hm2]
      have hpm : ∀ m, m ≠ n → ((remove s n).nodes m).parent = (s.nodes m).parent := by
        intro m hm1
        by_cases hm2 : m = c
        · subst hm2
          simp [remove, hpar, hpv, hnx, State.updNode, hm1]
        · simp [remove, hpar, hpv, hnx, State.updNode, hm1, hm2]
      refine ⟨hnd2, ?_, ?_, ?_, ?_, ?_, ?_⟩
      · simp [remove, hpar, hpv, hnx, State.updNode, State.updList]
      · have ht := h.tail_eq
        simp only [List.nil_append, List.getLast?_cons_cons] at ht
        simpa [remove, hpar, hpv, hnx, State.updNode, State.updList] using ht
      · rw [isSeg_cons]
        refine ⟨?_, ?_, ?_, ?_⟩
        · simpa [remove, hpar, hpv, hnx, State.updNode, State.updList, hcn] using hc1
        · simp [remove, hpar, hpv, hnx, State.updNode, State.updList, hcn]
        · simpa [remove, hpar, hpv, hnx, State.updNode, State.updList, hcn] using hc3
        · exact isSeg_congr hframe hC2
      · intro m
        by_cases hm : m = n
        · subst hm
          simp [remove, hpar, hpv, hnx, State.updNode, State.updList, clearLinks,
            Ne.symm hcn, hn2]
        · have hmi := h.mem_iff m
          simp only [List.nil_append, List.mem_cons] at hmi
          rw [hpm m hm, hmi]
          simp [hm]
      · intro m
        by_cases hm : m = n
        · subst hm
          simp [remove, hpar, hpv, hnx, State.updNode, State.updList, clearLinks,
            Ne.symm hcn]
        · rw [hpm m hm]
          exact h.single m
      · intro m
        by_cases hm : m = n
        · subst hm
          simp [remove, hpar, hpv, hnx, State.updNode, State.updList, clearLinks,
            Ne.symm hcn]
        · by_cases hm2 : m = c
          · subst hm2
            rw [hpm m hm]
            intro h0
            rw [hc1] at h0
            cases h0
          · intro h0
            rw [hpm m hm] at h0
            have := h.detached m h0
            simpa [remove, hpar, hpv, hnx, State.updNode, State.updList, hm, hm2]
              using this
  · cases l2 with
    | nil =>
      have hpv : (s.nodes n).prev = some t := by rw [hprev, lastOr_concat]
      have hnx : (s.nodes n).next = none := hnext
      have htn : t ≠ n := by
        rintro rfl
        exact hn1 (List.mem_append_right l1' (List.mem_cons_self t []))
      have htl : t ∉ l1' := by
        rw [List.nodup_append] at hnd1
        intro hm
        exact hnd1.2.2 hm (List.mem_cons_self t [])
      have hnl : n ∉ l1' := fun hm => hn1 (List.mem_append_left _ hm)
      have hA2 := hA
      rw [isSeg_append] at hA2
      obtain ⟨-, hA3⟩ := hA2
      obtain ⟨ht1, ht2, ht3, -⟩ := hA3
      simp only [List.append_nil]
      have hframe : ∀ m ∈ l1', (remove s n).nodes m = s.nodes m := by
        intro m hm
        have hm1 : m ≠ n := by rintro rfl; exact hnl hm
        have hm2 : m ≠ t := by rintro rfl; exact htl hm
        simp [remove, hpar, hpv, hnx, State.updNode, hm1, hm2]
      have hpm : ∀ m, m ≠ n → ((remove s n).nodes m).parent = (s.nodes m).parent := by
        intro m hm1
        by_cases hm2 : m = t
        · subst hm2
          simp [remove, hpar, hpv, hnx, State.updNode, hm1]
        · simp [remove, hpar, hpv, hnx, State.updNode, hm1, hm2]
      refine ⟨hnd1, ?_, ?_, ?_, ?_, ?_, ?_⟩
      · have hh := h.head_eq
        rw [List.head?_append_of_ne_nil _ (by simp : l1' ++ [t] ≠ [])] at hh
        simpa [remove, hpar, hpv, hnx, State.updNode, State.updList] using hh
      · simp [remove, hpar, hpv, hnx, State.updNode, State.updList,
          List.getLast?_concat]
      · refine isSeg_retarget hframe ?_ ?_ ?_ hA
        · simp [remove, hpar, hpv, hnx, State.updNode, htn]
        · simp [remove, hpar, hpv, hnx, State.updNode, htn]
        · simp [remove, hpar, hpv, hnx, State.updNode, htn]
      · intro m
        by_cases hm : m = n
        · subst hm
          simp [remove, hpar, hpv, hnx, State.updNode, State.updList, clearLinks,
            Ne.symm htn, hn1]
        · have hmi := h.mem_iff m
          rw [hpm m hm, hmi]
          simp [hm]
      · intro m
        by_cases hm : m = n
        · subst hm
          simp [remove, hpar, hpv, hnx, State.updNode, State.updList, clearLinks,
            Ne.symm htn]
        · rw [hpm m hm]
          exact h.single m
      · intro m
        by_cases hm : m = n
        · subst hm
          simp [remove, hpar, hpv, hnx, State.updNode, State.updList, clearLinks,
            Ne.symm htn]
        · by_cases hm2 : m = t
          · subst hm2
            rw [hpm m hm]
            intro h0
            rw [ht1] at h0
            cases h0
          · intro h0
            rw [hpm m hm] at h0
            have := h.detached m h0
            simpa [remove, hpar, hpv, hnx, State.updNode, State.updList, hm, hm2]
              using this
    | cons c l2' =>
      have hpv : (s.nodes n).prev = some t := by rw [hprev, lastOr_concat]
      have hnx : (s.nodes n).next = some c := hnext
      obtain ⟨hc1, hc2, hc3, hC2⟩ := hC
      have htn : t ≠ n := by
        rintro rfl
        exact hn1 (List.mem_append_right l1' (List.mem_cons_self t []))
      have htl : t ∉ l1' := by
        rw [List.nodup_append] at hnd1
        intro hm
        exact hnd1.2.2 hm (List.mem_cons_self t [])
      have hnl1 : n ∉ l1' := fun hm => hn1 (List.mem_append_left _ hm)
      have hcn : c ≠ n := by
        rintro rfl
        exact hn2 (List.mem_cons_self c l2')
      have hcl : c ∉ l2' := (List.nodup_cons.mp hnd2).1
      have hnl2 : n ∉ l2' := fun hm => hn2 (List.mem_cons_of_mem c hm)
      have hct : c ≠ t := by
        rintro rfl
        exact hdisj c (List.mem_append_right l1' (List.mem_cons_self c []))
          (List.mem_cons_self c l2')
      have hcl1 : c ∉ l1' := by
        intro hm
        exact hdisj c (List.mem_append_left _ hm) (List.mem_cons_self c l2')
      have hA2 := hA
      rw [isSeg_append] at hA2
      obtain ⟨-, hA3⟩ := hA2
      obtain ⟨ht1, ht2, ht3, -⟩ := hA3
      have hframe1 : ∀ m ∈ l1', (remove s n).nodes m = s.nodes m := by
        intro m hm
        have hm1 : m ≠ n := by rintro rfl; exact hnl1 hm
        have hm2 : m ≠ t := by rintro rfl; exact htl hm
        have hm3 : m ≠ c := by rintro rfl; exact hcl1 hm
        simp [remove, hpar, hpv, hnx, State.updNode, hm1, hm2, hm3]
      have hframe2 : ∀ m ∈ l2', (remove s n).nodes m = s.nodes m := by
        intro m hm
        have hm1 : m ≠ n := by rintro rfl; exact hnl2 hm
        have hm2 : m ≠ c := by rintro rfl; exact hcl hm
        have hm3 : m ≠ t := by
          rintro rfl
          exact hdisj m (List.mem_append_right l1' (List.mem_cons_self m []))
            (List.mem_cons_of_mem c hm)
        simp [remove, hpar, hpv, hnx, State.updNode, hm1, hm2, hm3]
      have hpm : ∀ m, m ≠ n → ((remove s n).nodes m).parent = (s.nodes m).parent := by
        intro m hm1
        by_cases hm2 : m = t
        · subst hm2
          simp [remove, hpar, hpv, hnx, State.updNode, hm1, Ne.symm hct]
        · by_cases hm3 : m = c
          · subst hm3
            simp [remove, hpar, hpv, hnx, State.updNode, hm1, hct]
          · simp [remove, hpar, hpv, hnx, State.updNode, hm1, hm2, hm3]
      refine ⟨hnodup, ?_, ?_, ?_, ?_, ?_, ?_⟩
      · have hh := h.head_eq
        rw [List.head?_append_of_ne_nil _ (by simp : l1' ++ [t] ≠ [])] at hh
        rw [List.head?_append_of_ne_nil _ (by simp : l1' ++ [t] ≠ [])]
        simpa [remove, hpar, hpv, hnx, State.updNode, State.updList] using hh
      · have ht := h.tail_eq
        rw [List.getLast?_append_of_ne_nil _ (by simp : n :: c :: l2' ≠ []),
          List.getLast?_cons_cons] at ht
        rw [List.getLast?_append_of_ne_nil _ (by simp : c :: l2' ≠ [])]
        simpa [remove, hpar, hpv, hnx, State.updNode, State.updList] using ht
      · rw [isSeg_append]
        constructor
        · refine isSeg_retarget hframe1 ?_ ?_ ?_ hA
          · simp [remove, hpar, hpv, hnx, State.updNode, htn, Ne.symm hct]
          · simp [remove, hpar, hpv, hnx, State.updNode, htn, Ne.symm hct]
          · simp [remove, hpar, hpv, hnx, State.updNode, htn, Ne.symm hct, headOr]
        · rw [lastOr_concat, isSeg_cons]
          refine ⟨?_, ?_, ?_, ?_⟩
          · simpa [remove, hpar, hpv, hnx, State.updNode, hcn, hct] using hc1
          · simp [remove, hpar, hpv, hnx, State.updNode, hcn, hct]
          · simpa [remove, hpar, hpv, hnx, State.updNode, hcn, hct] using hc3
          · exact isSeg_congr hframe2 hC2
      · have hmem : n ∉ l1' ++ [t] ++ c :: l2' := fun hmm =>
          (List.mem_append.mp hmm).elim (fun h1 => hn1 h1) (fun h1 => hn2 h1)
        intro m
        by_cases hm : m = n
        · subst hm
          simp [remove, hpar, hpv, hnx, State.updNode, clearLinks, Ne.symm htn,
            Ne.symm hcn, hmem, hnl1, hnl2]
        · have hmi := h.mem_iff m
          rw [hpm m hm, hmi]
          simp only [List.append_assoc, List.mem_append, List.mem_cons, hm, false_or]
      · intro m
        by_cases hm : m = n
        · subst hm
          simp [remove, hpar, hpv, hnx, State.updNode, clearLinks, Ne.symm htn,
            Ne.symm hcn]
        · rw [hpm m hm]
          exact h.single m
      · intro m
        by_cases hm : m = n
        · subst hm
          simp [remove, hpar, hpv, hnx, State.updNode, clearLinks, Ne.symm htn,
            Ne.symm hcn]
        · by_cases hm2 : m = t
          · subst hm2
            rw [hpm m hm]
            intro h0
            rw [ht1] at h0
            cases h0
          · by_cases hm3 : m = c
            · subst hm3
              rw [hpm m hm]
              intro h0
              rw [hc1] at h0
              cases h0
            · intro h0
              rw [hpm m hm] at h0
              have := h.detached m h0
              simpa [remove, hpar, hpv, hnx, State.updNode, hm, hm2, hm3]
                using this

end LinkedList

namespace LinkedList

theorem remove_detached {s : State} {n : Nat} (h : (s.nodes n).parent = none) :
    remove s n = s := by
  unfold remove
  rw [h]

theorem remove_fresh (s : State) (n : Nat) : (remove s n).fresh = s.fresh := by
  unfold remove
  split <;> rfl

theorem remove_data (s : State) (n m : Nat) :
    ((remove s n).nodes m).data = (s.nodes m).data := by
  unfold remove
  split
  · rfl
  all_goals
    simp only [State.updNode, State.updList, clearLinks]
    split_ifs <;> simp_all

theorem setTail_fresh (s : State) (p n : Nat) : (setTail s p n).fresh = s.fresh := rfl

theorem setTail_nodes (s : State) (p n : Nat) : (setTail s p n).nodes = s.nodes := rfl

theorem setHeadIfEmpty_fresh (s : State) (p n : Nat) :
    (setHeadIfEmpty s p n).fresh = s.fresh := by
  unfold setHeadIfEmpty
  split_ifs <;> rfl

theorem setHeadIfEmpty_nodes (s : State) (p n : Nat) :
    (setHeadIfEmpty s p n).nodes = s.nodes := by
  unfold setHeadIfEmpty
  split_ifs <;> rfl

theorem insert_back_fresh (s : State) (p n : Nat) : (insert_back s p n).fresh = s.fresh := by
  unfold insert_back
  split <;> simp [setTail_fresh, setHeadIfEmpty_fresh]

theorem insert_back_data (s : State) (p n m : Nat) :
    ((insert_back s p n).nodes m).data = (s.nodes m).data := by
  unfold insert_back
  split <;> simp only [setTail_nodes, setHeadIfEmpty_nodes, State.updNode] <;>
    split_ifs <;> simp_all

theorem put_back_fresh (s : State) (p n : Nat) : (put_back s p n).fresh = s.fresh := by
  unfold put_back
  rw [insert_back_fresh, remove_fresh]

theorem put_back_data (s : State) (p n m : Nat) :
    ((put_back s p n).nodes m).data = (s.nodes m).data := by
  unfold put_back
  rw [insert_back_data, remove_data]

theorem insert_inv {s : State} {p n : Nat} {l : List Nat}
    (h : Inv s p l) (hn : (s.nodes n).parent = none) :
    Inv (insert_back s p n) p (l ++ [n]) := by
  have hnl : n ∉ l := fun hm => by
    rw [← h.mem_iff n, hn] at hm
    cases hm
  obtain ⟨hprev0, hnext0⟩ := h.detached n hn
  cases htl : (s.lists p).tail with
  | none =>
    have hl : l = [] := by
      have h1 := h.tail_eq
      rw [htl] at h1
      exact List.getLast?_eq_none_iff.mp h1.symm
    subst hl
    have hhd : (s.lists p).head = none := h.head_eq
    refine ⟨by simp, ?_, ?_, ?_, ?_, ?_, ?_⟩
    · simp [insert_back, htl, setTail, setHeadIfEmpty, State.updList, State.updNode, hhd]
    · simp [insert_back, htl, setTail, setHeadIfEmpty, State.updList, State.updNode, hhd]
    · rw [List.nil_append, isSeg_cons]
      refine ⟨?_, ?_, ?_, trivial⟩
      · simp [insert_back, htl, setTail, setHeadIfEmpty, State.updList, State.updNode, hhd]
      · simp [insert_back, htl, setTail, setHeadIfEmpty, State.updList, State.updNode, hhd]
      · simpa [insert_back, htl, setTail, setHeadIfEmpty, State.updList, State.updNode,
          hhd, headOr] using hnext0
    · intro m
      by_cases hm : m = n
      · subst hm
        simp [insert_back, htl, setTail, setHeadIfEmpty, State.updList, State.updNode, hhd]
      · have hmi := h.mem_iff m
        simp only [List.not_mem_nil, iff_false] at hmi
        simp [insert_back, htl, setTail, setHeadIfEmpty, State.updList, State.updNode,
          hhd, hm, hmi]
    · intro m
      by_cases hm : m = n
      · subst hm
        simp [insert_back, htl, setTail, setHeadIfEmpty, State.updList, State.updNode, hhd]
      · have := h.single m
        simpa [insert_back, htl, setTail, setHeadIfEmpty, State.updList, State.updNode,
          hhd, hm] using this
    · intro m
      by_cases hm : m = n
      · subst hm
        simp [insert_back, htl, setTail, setHeadIfEmpty, State.updList, State.updNode, hhd]
      · have := h.detached m
        simpa [insert_back, htl, setTail, setHeadIfEmpty, State.updList, State.updNode,
          hhd, hm] using this
  | some t =>
    have hgl : l.getLast? = some t := by rw [← h.tail_eq, htl]
    obtain ⟨l1, rfl⟩ := List.getLast?_eq_some_iff.mp hgl
    have htn : t ≠ n := fun he =>
      hnl (he ▸ List.mem_append_right l1 (List.mem_cons_self t []))
    have htl1 : t ∉ l1 := by
      have hnd := h.nodup
      rw [List.nodup_append] at hnd
      intro hm
      exact hnd.2.2 hm (List.mem_cons_self t [])
    have hnl1 : n ∉ l1 := fun hm => hnl (List.mem_append_left _ hm)
    have hhd : (s.lists p).head = (l1 ++ [t]).head? := h.head_eq
    have hne : (s.lists p).head ≠ none := by
      rw [hhd]
      cases l1 <;> simp
    have hfr : ∀ m, m ≠ n → m ≠ t → (insert_back s p n).nodes m = s.nodes m := by
      intro m hm1 hm2
      simp [insert_back, htl, setTail_nodes, setHeadIfEmpty_nodes, State.updNode, hm1, hm2]
    have hnn : (insert_back s p n).nodes n =
        { s.nodes n with parent := some p, prev := some t } := by
      simp [insert_back, htl, setTail_nodes, setHeadIfEmpty_nodes, State.updNode,
        Ne.symm htn]
    have hnt : (insert_back s p n).nodes t =
        { s.nodes t with next := some n } := by
      simp [insert_back, htl, setTail_nodes, setHeadIfEmpty_nodes, State.updNode, htn]
    have hlst : (insert_back s p n).lists p =
        { (s.lists p) with tail := some n } := by
      simp [insert_back, htl, setTail, setHeadIfEmpty, State.updList, State.updNode, hne]
    refine ⟨?_, ?_, ?_, ?_, ?_, ?_, ?_⟩
    · rw [List.nodup_append]
      refine ⟨h.nodup, by simp, ?_⟩
      intro a ha hb
      rw [List.mem_singleton] at hb
      subst hb
      exact hnl ha
    · rw [hlst]
      rw [List.head?_append_of_ne_nil _ (by simp : l1 ++ [t] ≠ [])]
      exact hhd
    · rw [hlst]
      simp [List.getLast?_concat]
    · rw [isSeg_append]
      constructor
      · refine isSeg_retarget ?_ ?_ ?_ ?_ h.chain
        · intro m hm
          exact hfr m (fun he => hnl1 (he ▸ hm)) (fun he => htl1 (he ▸ hm))
        · rw [hnt]
        · rw [hnt]
        · rw [hnt]
          simp [headOr]
      · rw [lastOr_concat, isSeg_cons]
        refine ⟨?_, ?_, ?_, trivial⟩
        · rw [hnn]
        · rw [hnn]
        · rw [hnn]
          simpa [headOr] using hnext0
    · intro m
      by_cases hm : m = n
      · subst hm
        rw [hnn]
        simp
      · by_cases hm2 : m = t
        · subst hm2
          rw [hnt]
          have hmi := h.mem_iff m
          simp only []
          rw [hmi]
          simp [List.mem_append]
        · rw [hfr m hm hm2]
          rw [h.mem_iff m]
          simp [List.mem_append, hm]
    · intro m
      by_cases hm : m = n
      · subst hm
        rw [hnn]
        simp
      · by_cases hm2 : m = t
        · subst hm2
          rw [hnt]
          exact h.single m
        · rw [hfr m hm hm2]
          exact h.single m
    · intro m
      by_cases hm : m = n
      · subst hm
        rw [hnn]
        intro h0
        cases h0
      · by_cases hm2 : m = t
        · subst hm2
          rw [hnt]
          intro h0
          have hpt : (s.nodes m).parent = some p := by
            rw [h.mem_iff m]
            exact List.mem_append_right l1 (List.mem_cons_self m [])
          rw [show ({ s.nodes m with next := some n } : NodeData).parent
              = (s.nodes m).parent from rfl, hpt] at h0
          cases h0
        · rw [hfr m hm hm2]
          exact h.detached m

theorem put_back_inv {s : State} {p n : Nat} {l : List Nat} (h : Inv s p l) :
    Inv (put_back s p n) p (l.erase n ++ [n]) := by
  rcases h.single n with hn | hn
  · have hnl : n ∉ l := fun hm => by
      rw [← h.mem_iff n, hn] at hm
      cases hm
    rw [put_back, remove_detached hn, List.erase_of_not_mem hnl]
    exact insert_inv h hn
  · have hmem : n ∈ l := (h.mem_iff n).mp hn
    have h2 := remove_inv h hmem
    have hn2 : ((remove s n).nodes n).parent = none := by
      rcases h2.single n with h3 | h3
      · exact h3
      · exact absurd ((h2.mem_iff n).mp h3) h.nodup.not_mem_erase
    exact insert_inv h2 hn2

theorem alloc_inv {s : State} {p : Nat} {l : List Nat} (h : Inv s p l)
    (m d : Nat) (hm : m ∉ l) :
    Inv (({ s with fresh := s.fresh + 1 } : State).updNode m
      { data := d, parent := none, prev := none, next := none }) p l := by
  refine ⟨h.nodup, h.head_eq, h.tail_eq, ?_, ?_, ?_, ?_⟩
  · refine isSeg_congr ?_ h.chain
    intro a ha
    have : a ≠ m := fun he => hm (he ▸ ha)
    simp [State.updNode, this]
  · intro a
    by_cases ha : a = m
    · subst ha
      simp [State.updNode, hm]
    · have := h.mem_iff a
      simpa [State.updNode, ha] using this
  · intro a
    by_cases ha : a = m
    · subst ha
      simp [State.updNode]
    · have := h.single a
      simpa [State.updNode, ha] using this
  · intro a
    by_cases ha : a = m
    · subst ha
      simp [State.updNode]
    · have := h.detached a
      simpa [State.updNode, ha] using this

theorem push_back_inv {s : State} {p : Nat} {l : List Nat} {d : Nat} (h : Inv s p l)
    (hb : ∀ m ∈ l, m < s.fresh) :
    Inv (push_back s p d).1 p (l ++ [s.fresh]) := by
  have hf : s.fresh ∉ l := fun hm => lt_irrefl _ (hb _ hm)
  have h1 := alloc_inv h s.fresh d hf
  have h2 := put_back_inv (n := s.fresh) h1
  rw [List.erase_of_not_mem hf] at h2
  exact h2

theorem traverseFrom_of_seg {s : State} {p : Nat} {l : List Nat} (pv : Option Nat)
    (h : isSeg s p pv l none) : ∀ fuel, l.length ≤ fuel →
    traverseFrom s fuel l.head? = l := by
  induction l generalizing pv with
  | nil =>
    intro fuel _
    cases fuel <;> rfl
  | cons a rest ih =>
    intro fuel hf
    obtain ⟨-, -, h3, h4⟩ := h
    cases fuel with
    | zero => simp at hf
    | succ f =>
      simp only [List.head?_cons, traverseFrom]
      congr 1
      rw [next, h3, headOr_none]
      exact ih (some a) h4 f (Nat.le_of_succ_le_succ hf)

theorem traverse_inv {s : State} {p : Nat} {l : List Nat} (h : Inv s p l)
    (fuel : Nat) (hf : l.length ≤ fuel) : traverse s p fuel = l := by
  rw [traverse, head, h.head_eq]
  exact traverseFrom_of_seg none h.chain fuel hf

theorem push_back_fresh (s : State) (p d : Nat) :
    (push_back s p d).1.fresh = s.fresh + 1 := by
  simp [push_back, put_back_fresh]

theorem init_inv (p : Nat) : Inv initState p [] := by
  refine ⟨List.nodup_nil, rfl, rfl, trivial, ?_, ?_, ?_⟩
  · intro m
    simp [initState]
  · intro m
    left
    rfl
  · intro m _
    exact ⟨rfl, rfl⟩

theorem run_inv {s : State} {p : Nat} {l : List Nat} {c : Nat} (ops : List Op)
    (h : Inv s p l) (hc : s.fresh = c) (hb : ∀ m ∈ l, m < c)
    (hv : opsValidB c ops = true) :
    Inv (run s p ops) p (absRun c l ops).2 ∧
    (run s p ops).fresh = (absRun c l ops).1 ∧
    (∀ m ∈ (absRun c l ops).2, m < (absRun c l ops).1) := by
  induction ops generalizing s l c with
  | nil => exact ⟨h, hc, hb⟩
  | cons o rest ih =>
    cases o with
    | push d =>
      subst hc
      simp only [run, runOp, absRun, absOp, opsValidB] at hv ⊢
      refine ih (push_back_inv h hb) (by rw [push_back_fresh]) ?_ hv
      intro m hm
      rw [List.mem_append] at hm
      rcases hm with hm | hm
      · exact Nat.lt_succ_of_lt (hb m hm)
      · rw [List.mem_singleton] at hm
        subst hm
        exact Nat.lt_succ_self _
    | put n =>
      subst hc
      simp only [run, runOp, absRun, absOp, opsValidB, Bool.and_eq_true,
        decide_eq_true_eq] at hv ⊢
      obtain ⟨hvn, hv⟩ := hv
      refine ih (put_back_inv h) (by rw [put_back_fresh]) ?_ hv
      intro m hm
      rw [List.mem_append] at hm
      rcases hm with hm | hm
      · exact hb m (List.mem_of_mem_erase hm)
      · rw [List.mem_singleton] at hm
        subst hm
        exact hvn

theorem setTail_tail (s : State) (p n : Nat) :
    ((setTail s p n).lists p).tail = some n := by
  simp [setTail, State.updList]

theorem setTail_head (s : State) (p n : Nat) :
    ((setTail s p n).lists p).head = (s.lists p).head := by
  simp [setTail, State.updList]

theorem setHeadIfEmpty_head_of_empty (s : State) (p n : Nat)
    (h : (s.lists p).head = none) :
    ((setHeadIfEmpty s p n).lists p).head = some n := by
  simp [setHeadIfEmpty, h, State.updList]

/-- After the insertion loop, the tail slot names the inserted node. -/
theorem insert_back_tail (s : State) (p n : Nat) :
    ((insert_back s p n).lists p).tail = some n := by
  unfold insert_back
  split <;> exact setTail_tail _ p n

/-- When the list was empty, the insertion loop fills the head slot with
the inserted node. -/
theorem insert_back_head_of_empty (s : State) (p n : Nat)
    (h : (s.lists p).head = none) :
    ((insert_back s p n).lists p).head = some n := by
  unfold insert_back
  split <;> rw [setTail_head] <;>
    exact setHeadIfEmpty_head_of_empty _ p n (by simpa using h)

/-- After the insertion loop, the `prev` field of the inserted node holds
the tail the list had on entry to the loop. -/
theorem insert_back_prev (s : State) (p n : Nat)
    (hne : (s.lists p).tail ≠ some n) :
    ((insert_back s p n).nodes n).prev = (s.lists p).tail := by
  cases htl : (s.lists p).tail with
  | none => simp [insert_back, htl, setTail_nodes, setHeadIfEmpty_nodes, State.updNode]
  | some t =>
    have htn : n ≠ t := fun he => hne (by rw [htl, he])
    simp [insert_back, htl, setTail_nodes, setHeadIfEmpty_nodes, State.updNode, htn]

/-- The tail slot never names a node outside the represented chain. -/
theorem tail_ne_of_not_mem {s : State} {p n : Nat} {l : List Nat} (h : Inv s p l)
    (hn : n ∉ l) : (s.lists p).tail ≠ some n := by
  rw [h.tail_eq]
  intro hc
  obtain ⟨l1, rfl⟩ := List.getLast?_eq_some_iff.mp hc
  exact hn (List.mem_append_right l1 (List.mem_cons_self n []))

theorem sW2_inv : Inv sW2 0 [0, 1] := by
  have h := (run_inv opsW2 (init_inv 0) rfl (by simp) (by decide)).1
  exact h

theorem sW3_inv : Inv sW3 0 [0, 1, 2] := by
  have h := (run_inv opsW3 (init_inv 0) rfl (by simp) (by decide)).1
  exact h

/-- C1: for every valid single-thread sequence of push_back and put_back
calls against a fresh list, with all returned node handles retained, the
traversal from head via repeated next visits exactly the currently
attached nodes, in the order each was most recently appended or moved to
the tail (the traversal equals the abstract order, and a node carries this
list as parent exactly when it occurs in that order; the traversal list
ends because the last node has no successor, so next returns none
afterwards). -/
theorem C1_traversal (ops : List Op) (fuel : Nat)
    (hv : opsValidB 0 ops = true)
    (hf : (absRun 0 [] ops).2.length ≤ fuel) :
    traverse (run initState 0 ops) 0 fuel = (absRun 0 [] ops).2 ∧
    ∀ m, ((run initState 0 ops).nodes m).parent = some 0 ↔
      m ∈ (absRun 0 [] ops).2 := by
  obtain ⟨h, -, -⟩ := run_inv ops (init_inv 0) rfl (by simp) hv
  exact ⟨traverse_inv h fuel hf, h.mem_iff⟩

theorem C1_traversal_witness :
    (opsValidB 0 [Op.push 5, Op.push 7, Op.put 0] = true ∧
      (absRun 0 [] [Op.push 5, Op.push 7, Op.put 0]).2.length ≤ 3) ∧
    traverse (run initState 0 [Op.push 5, Op.push 7, Op.put 0]) 0 3 = [1, 0] ∧
    (∀ m, ((run initState 0 [Op.push 5, Op.push 7, Op.put 0]).nodes m).parent = some 0 ↔
      m ∈ ([1, 0] : List Nat)) :=
  ⟨⟨by decide, by decide⟩,
    (C1_traversal [Op.push 5, Op.push 7, Op.put 0] 3 (by decide) (by decide)).1,
    (C1_traversal [Op.push 5, Op.push 7, Op.put 0] 3 (by decide) (by decide)).2⟩

/-- C2: every public operation preserves the structural invariant.
put_back, remove and push_back map a state satisfying the representation
invariant to a state satisfying it again; head and next are pure reads
that produce no successor state, so there is nothing for them to preserve.
The remaining conjuncts spell out the invariant content the claim lists:
the head slot is empty iff the tail slot is empty iff no node is attached;
following next from the head visits the chain and ends at the node the
tail slot names; a node carries this list as parent iff it lies on the
chain; and a detached node has empty prev and next. -/
theorem C2_invariants {s : State} {p : Nat} {l : List Nat} (n d : Nat)
    (h : Inv s p l) (hb : ∀ m ∈ l, m < s.fresh) :
    (∃ l2, Inv (put_back s p n) p l2) ∧
    (∃ l2, Inv (remove s n) p l2) ∧
    (∃ l2, Inv (push_back s p d).1 p l2) ∧
    ((s.lists p).head = none ↔ (s.lists p).tail = none) ∧
    ((s.lists p).head = none ↔ ∀ m, (s.nodes m).parent ≠ some p) ∧
    (∀ fuel, l.length ≤ fuel → traverse s p fuel = l ∧
      (traverse s p fuel).getLast? = (s.lists p).tail) ∧
    (∀ m, (s.nodes m).parent = some p ↔ m ∈ l) ∧
    (∀ m, (s.nodes m).parent = none →
      (s.nodes m).prev = none ∧ (s.nodes m).next = none) := by
  refine ⟨⟨_, put_back_inv h⟩, ?_, ⟨_, push_back_inv h hb⟩, ?_, ?_, ?_,
    h.mem_iff, h.detached⟩
  · rcases h.single n with hn | hn
    · exact ⟨l, by rw [remove_detached hn]; exact h⟩
    · exact ⟨_, remove_inv h ((h.mem_iff n).mp hn)⟩
  · rw [h.head_eq, h.tail_eq]
    cases l with
    | nil => simp
    | cons a rest => simp [List.getLast?_eq_none_iff]
  · rw [h.head_eq]
    constructor
    · intro h0 m hm
      have hl : l = [] := List.head?_eq_none_iff.mp h0
      rw [h.mem_iff m, hl] at hm
      cases hm
    · intro h0
      cases hl : l with
      | nil => rfl
      | cons a rest =>
        exact absurd ((h.mem_iff a).mpr (hl ▸ List.mem_cons_self a rest)) (h0 a)
  · intro fuel hf
    have ht := traverse_inv h fuel hf
    exact ⟨ht, by rw [ht, h.tail_eq]⟩

theorem C2_invariants_witness :
    (Inv sW2 0 [0, 1] ∧ ∀ m ∈ ([0, 1] : List Nat), m < sW2.fresh) ∧
    ((∃ l2, Inv (put_back sW2 0 0) 0 l2) ∧
     (∃ l2, Inv (remove sW2 0) 0 l2) ∧
     (∃ l2, Inv (push_back sW2 0 3).1 0 l2) ∧
     ((sW2.lists 0).head = none ↔ (sW2.lists 0).tail = none) ∧
     ((sW2.lists 0).head = none ↔ ∀ m, (sW2.nodes m).parent ≠ some 0) ∧
     (∀ fuel, ([0, 1] : List Nat).length ≤ fuel → traverse sW2 0 fuel = [0, 1] ∧
       (traverse sW2 0 fuel).getLast? = (sW2.lists 0).tail) ∧
     (∀ m, (sW2.nodes m).parent = some 0 ↔ m ∈ ([0, 1] : List Nat)) ∧
     (∀ m, (sW2.nodes m).parent = none →
       (sW2.nodes m).prev = none ∧ (sW2.nodes m).next = none)) :=
  ⟨⟨sW2_inv, by decide⟩, C2_invariants 0 3 sW2_inv (by decide)⟩

/-- C3 counterexample: the claim says the prev field of the node after
put_back refers to the tail the list had before the call.  In the state
sW2 the list is [0, 1] and node 1 is the tail; put_back of node 1 first
detaches it, so its prev afterwards is some 0, not the pre-call tail
some 1. -/
theorem C3_cex :
    (sW2.lists 0).tail = some 1 ∧
    ((put_back sW2 0 1).lists 0).tail = some 1 ∧
    ((put_back sW2 0 1).nodes 1).prev = some 0 ∧
    ((put_back sW2 0 1).nodes 1).prev ≠ (sW2.lists 0).tail := by decide

/-- C3 amended: after put_back the node is the tail; its prev refers to
the tail the list had immediately after the node was detached from its
previous position (this equals the pre-call tail whenever the node was not
attached); and if the list was empty before the call, the node is also the
head. -/
theorem C3_amended {s : State} {p n : Nat} {l : List Nat} (h : Inv s p l) :
    ((put_back s p n).lists p).tail = some n ∧
    ((put_back s p n).nodes n).prev = ((remove s n).lists p).tail ∧
    ((s.nodes n).parent = none →
      ((put_back s p n).nodes n).prev = (s.lists p).tail) ∧
    (l = [] → ((put_back s p n).lists p).head = some n) := by
  unfold put_back
  rcases h.single n with hn | hn
  · have hnl : n ∉ l := fun hm => by
      rw [← h.mem_iff n, hn] at hm
      cases hm
    have hid : remove s n = s := remove_detached hn
    rw [hid]
    refine ⟨insert_back_tail s p n,
      insert_back_prev s p n (tail_ne_of_not_mem h hnl),
      fun _ => insert_back_prev s p n (tail_ne_of_not_mem h hnl), ?_⟩
    intro hl
    subst hl
    exact insert_back_head_of_empty s p n (by simpa using h.head_eq)
  · have hmem := (h.mem_iff n).mp hn
    have h2 := remove_inv h hmem
    have hn2 : n ∉ l.erase n := h.nodup.not_mem_erase
    refine ⟨insert_back_tail _ p n,
      insert_back_prev _ p n (tail_ne_of_not_mem h2 hn2), ?_, ?_⟩
    · intro h0
      rw [hn] at h0
      cases h0
    · intro hl
      subst hl
      exact absurd hmem (List.not_mem_nil n)

theorem C3_amended_witness :
    Inv sW2 0 [0, 1] ∧
    (((put_back sW2 0 0).lists 0).tail = some 0 ∧
     ((put_back sW2 0 0).nodes 0).prev = ((remove sW2 0).lists 0).tail ∧
     ((sW2.nodes 0).parent = none →
       ((put_back sW2 0 0).nodes 0).prev = (sW2.lists 0).tail) ∧
     (([0, 1] : List Nat) = [] → ((put_back sW2 0 0).lists 0).head = some 0)) :=
  ⟨sW2_inv, C3_amended sW2_inv⟩

/-- C4: remove detaches the node, leaving its parent, prev and next all
empty after the call, and when the node is already unattached remove is a
no-op that changes no state. -/
theorem C4_remove_detaches {s : State} {p n : Nat} {l : List Nat} (h : Inv s p l) :
    ((remove s n).nodes n).parent = none ∧
    ((remove s n).nodes n).prev = none ∧
    ((remove s n).nodes n).next = none ∧
    ((s.nodes n).parent = none → remove s n = s) := by
  rcases h.single n with hn | hn
  · rw [remove_detached hn]
    obtain ⟨h1, h2⟩ := h.detached n hn
    exact ⟨hn, h1, h2, fun _ => rfl⟩
  · have hmem := (h.mem_iff n).mp hn
    have h2 := remove_inv h hmem
    have hn2 : ((remove s n).nodes n).parent = none := by
      rcases h2.single n with h3 | h3
      · exact h3
      · exact absurd ((h2.mem_iff n).mp h3) h.nodup.not_mem_erase
    obtain ⟨h3, h4⟩ := h2.detached n hn2
    refine ⟨hn2, h3, h4, fun h0 => ?_⟩
    rw [hn] at h0
    cases h0

theorem C4_remove_detaches_witness :
    Inv sW2 0 [0, 1] ∧
    (((remove sW2 0).nodes 0).parent = none ∧
     ((remove sW2 0).nodes 0).prev = none ∧
     ((remove sW2 0).nodes 0).next = none ∧
     ((sW2.nodes 0).parent = none → remove sW2 0 = sW2)) :=
  ⟨sW2_inv, C4_remove_detaches sW2_inv⟩

/-- C5: calling put_back on the node that is currently the tail of a
non-empty list leaves the observable traversal order unchanged. -/
theorem C5_put_back_tail_noop {s : State} {p n : Nat} {l : List Nat} (h : Inv s p l)
    (ht : (s.lists p).tail = some n) (fuel : Nat) (hf : l.length ≤ fuel) :
    traverse (put_back s p n) p fuel = traverse s p fuel := by
  have hgl : l.getLast? = some n := by rw [← h.tail_eq, ht]
  obtain ⟨l1, rfl⟩ := List.getLast?_eq_some_iff.mp hgl
  have hn1 : n ∉ l1 := by
    have hnd := h.nodup
    rw [List.nodup_append] at hnd
    intro hm
    exact hnd.2.2 hm (List.mem_cons_self n [])
  have herase : (l1 ++ [n]).erase n = l1 := by
    have h0 := erase_middle l1 [] n hn1
    simpa using h0
  have h2 := put_back_inv (n := n) h
  rw [herase] at h2
  rw [traverse_inv h fuel hf, traverse_inv h2 fuel hf]

theorem C5_put_back_tail_noop_witness :
    (Inv sW2 0 [0, 1] ∧ (sW2.lists 0).tail = some 1 ∧
      ([0, 1] : List Nat).length ≤ 2) ∧
    traverse (put_back sW2 0 1) 0 2 = traverse sW2 0 2 :=
  ⟨⟨sW2_inv, by decide, by decide⟩,
    C5_put_back_tail_noop sW2_inv (by decide) 2 (by decide)⟩

/-- C6 counterexample: the claim says a failed non-blocking acquisition
leaves every field of every node unchanged at the restart.  In the state
sD3 node 2 is detached (parent and prev empty) and list 0 has tail some 1;
the failing iteration writes parent and prev of node 2 before the
non-blocking attempt, so the parent field of node 2 differs at the
restart. -/
theorem C6_cex :
    (sD3.nodes 2).parent = none ∧
    (sD3.nodes 2).prev = none ∧
    (sD3.lists 0).tail = some 1 ∧
    ((put_back_retry sD3 0 2).nodes 2).parent = some 0 ∧
    ((put_back_retry sD3 0 2).nodes 2).parent ≠ (sD3.nodes 2).parent := by decide

/-- C6 amended: a failed iteration of the insertion loop leaves the head
and tail slots of every list, the allocation counter, and every node other
than the node being inserted unchanged; of the inserted node it rewrites
only the parent and prev fields (to this list and to the observed tail),
keeping its data and next fields. -/
theorem C6_retry_frame (s : State) (p n : Nat) :
    (put_back_retry s p n).lists = s.lists ∧
    (put_back_retry s p n).fresh = s.fresh ∧
    (∀ m, (put_back_retry s p n).nodes m =
      if m = n then { s.nodes n with parent := some p, prev := (s.lists p).tail }
      else s.nodes m) ∧
    ((put_back_retry s p n).nodes n).data = (s.nodes n).data ∧
    ((put_back_retry s p n).nodes n).next = (s.nodes n).next := by
  refine ⟨rfl, rfl, fun m => ?_, ?_, ?_⟩
  · by_cases hm : m = n <;> simp [put_back_retry, State.updNode, hm]
  · simp [put_back_retry, State.updNode]
  · simp [put_back_retry, State.updNode]

/-- C7 counterexample: the claim says removing a node with live
predecessor and successor updates only the next field of the predecessor
and the prev field of the successor.  In the state sW3 node 1 has
predecessor 0 and successor 2, and remove also clears the fields of
node 1 itself. -/
theorem C7_cex :
    (sW3.nodes 1).parent = some 0 ∧
    (sW3.nodes 1).prev = some 0 ∧
    (sW3.nodes 1).next = some 2 ∧
    (remove sW3 1).nodes 1 ≠ sW3.nodes 1 := by decide

/-- C7 amended: removing a node with both a live predecessor and a live
successor updates only the next field of the predecessor (to the
successor), the prev field of the successor (to the predecessor) and the
parent, prev and next fields of the removed node itself (cleared); the
head and tail slots of every list and every other node are unchanged. -/
theorem C7_middle_frame {s : State} {p n pv nx : Nat}
    (hp : (s.nodes n).parent = some p)
    (hpv : (s.nodes n).prev = some pv)
    (hnx : (s.nodes n).next = some nx)
    (h1 : pv ≠ n) (h2 : nx ≠ n) (h3 : nx ≠ pv) :
    (remove s n).lists = s.lists ∧
    (remove s n).nodes pv = { s.nodes pv with next := some nx } ∧
    (remove s n).nodes nx = { s.nodes nx with prev := some pv } ∧
    (remove s n).nodes n = clearLinks (s.nodes n) ∧
    (∀ m, m ≠ n → m ≠ pv → m ≠ nx → (remove s n).nodes m = s.nodes m) := by
  refine ⟨?_, ?_, ?_, ?_, ?_⟩
  · simp only [remove, hp, hpv, hnx]
    rfl
  · simp [remove, hp, hpv, hnx, State.updNode, h1, Ne.symm h3]
  · simp [remove, hp, hpv, hnx, State.updNode, h2, h3]
  · simp [remove, hp, hpv, hnx, State.updNode, Ne.symm h1, Ne.symm h2]
  · intro m hm1 hm2 hm3
    simp [remove, hp, hpv, hnx, State.updNode, hm1, hm2, hm3]

theorem C7_middle_frame_witness :
    ((sW3.nodes 1).parent = some 0 ∧ (sW3.nodes 1).prev = some 0 ∧
      (sW3.nodes 1).next = some 2 ∧ (0 : Nat) ≠ 1 ∧ (2 : Nat) ≠ 1 ∧
      (2 : Nat) ≠ 0) ∧
    ((remove sW3 1).lists = sW3.lists ∧
     (remove sW3 1).nodes 0 = { sW3.nodes 0 with next := some 2 } ∧
     (remove sW3 1).nodes 2 = { sW3.nodes 2 with prev := some 0 } ∧
     (remove sW3 1).nodes 1 = clearLinks (sW3.nodes 1) ∧
     (∀ m, m ≠ 1 → m ≠ 0 → m ≠ 2 → (remove sW3 1).nodes m = sW3.nodes m)) :=
  ⟨⟨by decide, by decide, by decide, by decide, by decide, by decide⟩,
    @C7_middle_frame sW3 0 1 0 2 (by decide) (by decide) (by decide) (by decide)
      (by decide) (by decide)⟩

/-- C8: for an attached node, remove followed by put_back of the same node
into the same list gives exactly the state a plain put_back would give,
and the traversal shows the other nodes in their original order with the
node now at the tail. -/
theorem C8_round_trip {s : State} {p n : Nat} {l : List Nat} (h : Inv s p l)
    (hn : (s.nodes n).parent = some p) (fuel : Nat) (hf : l.length ≤ fuel) :
    put_back (remove s n) p n = put_back s p n ∧
    traverse (put_back (remove s n) p n) p fuel = l.erase n ++ [n] ∧
    ((put_back (remove s n) p n).lists p).tail = some n := by
  have hmem := (h.mem_iff n).mp hn
  have h2 := remove_inv h hmem
  have hcl : ((remove s n).nodes n).parent = none := by
    rcases h2.single n with h3 | h3
    · exact h3
    · exact absurd ((h2.mem_iff n).mp h3) h.nodup.not_mem_erase
  have heq : put_back (remove s n) p n = put_back s p n := by
    show insert_back (remove (remove s n) n) p n = insert_back (remove s n) p n
    rw [remove_detached hcl]
  have hlen : (l.erase n ++ [n]).length ≤ fuel := by
    rw [List.length_append, List.length_erase_of_mem hmem]
    have hpos := List.length_pos_of_mem hmem
    simpa using by omega
  refine ⟨heq, ?_, ?_⟩
  · rw [heq]
    exact traverse_inv (put_back_inv (n := n) h) fuel hlen
  · rw [heq]
    exact insert_back_tail _ p n

theorem C8_round_trip_witness :
    (Inv sW2 0 [0, 1] ∧ (sW2.nodes 0).parent = some 0 ∧
      ([0, 1] : List Nat).length ≤ 2) ∧
    (put_back (remove sW2 0) 0 0 = put_back sW2 0 0 ∧
     traverse (put_back (remove sW2 0) 0 0) 0 2 = [1, 0] ∧
     ((put_back (remove sW2 0) 0 0).lists 0).tail = some 0) :=
  ⟨⟨sW2_inv, by decide, by decide⟩,
    C8_round_trip sW2_inv (by decide) 2 (by decide)⟩

/-- C10: put_back and remove never modify the data payload of any node:
for every node the data field is unchanged by either operation. -/
theorem C10_data_frame (s : State) (p n m : Nat) :
    ((put_back s p n).nodes m).data = (s.nodes m).data ∧
    ((remove s n).nodes m).data = (s.nodes m).data :=
  ⟨put_back_data s p n m, remove_data s n m⟩

end LinkedList
